import Mathlib

/-!
Verification of the multi-source syllabic scan engine (`fullscan_cli.py`).

The source file contains two engine variants.  Both share the same
per-source state (token stream, first-occurrence index, miss count, line
clusters) and the same `ingest` / `scan_complete` / `dump` / `token_count`
/ `avg_syllable_length` logic; they differ only in tokenization:

* variant 1 (`tokenize_syllabic`, first class): finds word-plus-punctuation
  runs, syllabifies the word body with the accumulate-on-vowel syllabifier
  (vowel set aeiouy, both cases) and rejoins the syllables with the
  punctuation;
* variant 2 (`tokenize_syllabic`, second class): in word mode keeps the
  word body plus punctuation unchanged; in syllable mode extracts bare
  words and splits each with a regex syllabifier
  (non-vowels, vowels, non-vowels; vowel set aeiou, both cases).

Strings are embedded as `List Char`; Python dicts keyed by strings become
association lists with `List.lookup` (first binding wins, insertion only
when the key is absent, exactly as the code inserts).
-/

/-- A token (a Python string) is a list of characters. -/
abbrev Tok := List Char

/-- The apostrophe character (ASCII 39). -/
def apos : Char := Char.ofNat 39

/-- Characters matched by the regex class `[\w']` on ASCII input:
alphanumerics, underscore, apostrophe. -/
def isWordChar (c : Char) : Bool :=
  c.isAlphanum || c == '_' || c == apos

/-- Characters of the trailing-punctuation class `[.,!?;:]`. -/
def isPunc (c : Char) : Bool :=
  c == '.' || c == ',' || c == '!' || c == '?' || c == ';' || c == ':'

/-- Whitespace characters stripped by Python `str.strip()`:
space, tab, newline, carriage return, vertical tab, form feed. -/
def isPySpace (c : Char) : Bool :=
  c == ' ' || c == '\t' || c == '\n' || c == '\r'
    || c == Char.ofNat 11 || c == Char.ofNat 12

/-- Python `raw.strip()`: drop leading and trailing whitespace. -/
def pyStrip (s : List Char) : List Char :=
  ((s.dropWhile isPySpace).reverse.dropWhile isPySpace).reverse

/-- Python `s.split('\n')`: split on newline characters, keeping empty
pieces; the empty string yields `[[]]`. -/
def splitNl : List Char → List (List Char)
  | [] => [[]]
  | c :: cs =>
    if c == '\n' then [] :: splitNl cs
    else
      match splitNl cs with
      | [] => [[c]]
      | l :: ls => (c :: l) :: ls

/-- Dropping a while-run never lengthens a list. -/
theorem len_dropWhile_le (p : α → Bool) (l : List α) :
    (l.dropWhile p).length ≤ l.length :=
  (List.dropWhile_sublist p).length_le

/-- Lexer loop for `re.findall(r"[\w']+", text)`: `cur` holds the
word-character run currently being built (`[]` between runs); a
non-word character closes a non-empty run as one match. -/
def findWordsAux : List Char → List Char → List Tok
  | cur, [] => if cur.isEmpty then [] else [cur]
  | cur, c :: cs =>
    if isWordChar c then findWordsAux (cur ++ [c]) cs
    else if cur.isEmpty then findWordsAux [] cs
    else cur :: findWordsAux [] cs

/-- The matches of `re.findall(r"[\w']+", text)`: the maximal
word-character runs of the text, in order. -/
def findWords (text : List Char) : List Tok :=
  findWordsAux [] text

/-- Lexer loop for `re.findall(r"[\w']+[.,!?;:]*", text)`, with each match
already split (as `re.match(r"([\w']+)([.,!?;:]*)", w)` does) into its word
body `w` and trailing punctuation run `p`.  A match is the maximal
word-character run found from the current position followed by the maximal
punctuation run; a word character arriving while punctuation is open
starts the next match. -/
def findWordPuncAux : List Char → List Char → List Char → List (Tok × Tok)
  | w, p, [] => if w.isEmpty then [] else [(w, p)]
  | w, p, c :: cs =>
    if w.isEmpty then
      if isWordChar c then findWordPuncAux [c] [] cs
      else findWordPuncAux [] [] cs
    else if p.isEmpty then
      if isWordChar c then findWordPuncAux (w ++ [c]) [] cs
      else if isPunc c then findWordPuncAux w [c] cs
      else (w, p) :: findWordPuncAux [] [] cs
    else
      if isPunc c then findWordPuncAux w (p ++ [c]) cs
      else if isWordChar c then (w, p) :: findWordPuncAux [c] [] cs
      else (w, p) :: findWordPuncAux [] [] cs

/-- The matches of `re.findall(r"[\w']+[.,!?;:]*", text)`, split into
word-body and punctuation pairs. -/
def findWordPunc (text : List Char) : List (Tok × Tok) :=
  findWordPuncAux [] [] text

/-- The vowel string `'aeiouyAEIOUY'` of the first variant's syllabifier. -/
def vowelsY : List Char :=
  ['a', 'e', 'i', 'o', 'u', 'y', 'A', 'E', 'I', 'O', 'U', 'Y']

/-- Loop of the first variant's `syllabify` (lines 58–72): walk the word,
appending each character to a buffer; a vowel closes the buffer as a
syllable; a non-empty trailing buffer is emitted at the end. -/
def syllabifyAux : List Char → List Char → List Tok
  | syl, [] => if syl.isEmpty then [] else [syl]
  | syl, c :: cs =>
    let syl2 := syl ++ [c]
    if vowelsY.contains c && !syl2.isEmpty then
      syl2 :: syllabifyAux [] cs
    else
      syllabifyAux syl2 cs

/-- First variant's `syllabify` (accumulate-on-vowel policy, vowel set
`aeiouyAEIOUY`). -/
def syllabify (word : Tok) : List Tok :=
  syllabifyAux [] word

/-- Vowels of the second variant's regex syllabifier: `[aeiou]` under
`re.I`. -/
def vowels5 (c : Char) : Bool :=
  c == 'a' || c == 'e' || c == 'i' || c == 'o' || c == 'u'
    || c == 'A' || c == 'E' || c == 'I' || c == 'O' || c == 'U'

/-- Second variant's `syllabify` (lines 272–273):
`re.findall(r"[^aeiou]*[aeiou]+[^aeiou]*", word, re.I)` — each match is a
maximal run of non-vowels, then one-or-more vowels, then non-vowels; a
vowel-free tail (or word) produces no match at all. -/
def syllabify2 (w : List Char) : List Tok :=
  match h : w.dropWhile (fun c => !vowels5 c) with
  | [] => []
  | v :: rest1 =>
    let rest2 := rest1.dropWhile vowels5
    (w.takeWhile (fun c => !vowels5 c)
        ++ (v :: rest1.takeWhile vowels5)
        ++ rest2.takeWhile (fun c => !vowels5 c))
      :: syllabify2 (rest2.dropWhile (fun c => !vowels5 c))
termination_by w.length
decreasing_by
  have h1 : (rest1.dropWhile vowels5).length ≤ rest1.length :=
    len_dropWhile_le _ _
  have h2 : ((rest1.dropWhile vowels5).dropWhile (fun c => !vowels5 c)).length
      ≤ (rest1.dropWhile vowels5).length := len_dropWhile_le _ _
  have h3 : (v :: rest1).length ≤ w.length := by
    have := len_dropWhile_le (fun c => !vowels5 c) w
    rw [h] at this
    exact this
  simp only [List.length_cons] at h3
  omega

/-- First variant's `tokenize_syllabic` (lines 45–56): each word body is
syllabified and the syllables are rejoined with the trailing punctuation. -/
def tokenize_syllabic1 (text : List Char) : List Tok :=
  (findWordPunc text).map (fun bp => (syllabify bp.1).flatten ++ bp.2)

/-- Second variant's `tokenize_syllabic` (lines 275–292): in syllable mode
extract bare words and flatten the regex syllabifier over them; in word
mode keep each word body with its trailing punctuation. -/
def tokenize_syllabic2 (syllableMode : Bool) (text : List Char) : List Tok :=
  if syllableMode then
    ((findWords text).map syllabify2).flatten
  else
    (findWordPunc text).map (fun bp => bp.1 ++ bp.2)

/-- Syllable-mode tokenization (bare-word extraction of the second
variant's `tokenize_syllabic`, lines 275–282) combined with the
accumulate-on-vowel syllabifier of lines 58–72 — the syllabification
policy the specification designates. -/
def tokenize_syllable_accum (text : List Char) : List Tok :=
  ((findWords text).map syllabify).flatten

/-- Sanity check: the accumulate-on-vowel syllabifier splits "strength"
as "stre" + "ngth" (the vowel e closes the first syllable). -/
theorem syllabify_strength :
    syllabify ['s', 't', 'r', 'e', 'n', 'g', 't', 'h']
      = [['s', 't', 'r', 'e'], ['n', 'g', 't', 'h']] := by decide

/-- The regex syllabifier returns no syllables at all on a vowel-free
word, so it does not satisfy the round-trip invariant there (the
accumulate-on-vowel syllabifier, in contrast, returns the whole word). -/
theorem syllabify2_eq_nil_of_no_vowel (w : List Char)
    (h : ∀ c ∈ w, vowels5 c = false) : syllabify2 w = [] := by
  rw [syllabify2]
  split
  · rfl
  · rename_i v rest1 heq
    have hv : v ∈ w.dropWhile (fun c => !vowels5 c) := by
      rw [heq]; exact List.mem_cons_self _ _
    have hvw : v ∈ w := (List.dropWhile_sublist _).subset hv
    have : (w.dropWhile (fun c => !vowels5 c)) = [] := by
      rw [List.dropWhile_eq_nil_iff]
      intro x hx
      simp [h x hx]
    rw [this] at heq
    exact absurd heq (by simp)

/-! ## Engine state -/

/-- Per-source state of `FullScanEngine`: the token stream
(`self.sources[source]`), the first-occurrence index
(`self.context_maps[source]`, an association list looked up with
`List.lookup`, first binding wins), the cached miss count
(`self.miss_counts[source]`) and the line clusters
(`self.clusters[source]`). -/
structure SourceState where
  tokens : List Tok
  index : List (Tok × Nat)
  missCount : Nat
  clusters : List (List Tok)
deriving DecidableEq, Repr

/-- The state a fresh source receives on its first `ingest`. -/
def SourceState.init : SourceState :=
  { tokens := [], index := [], missCount := 0, clusters := [] }

/-- The engine's per-source map, keyed by source name. -/
abbrev Engine := List (String × SourceState)

/-- Update (or create) the binding of `src`. -/
def setSource : Engine → String → SourceState → Engine
  | [], src, st => [(src, st)]
  | (k, v) :: rest, src, st =>
    if k == src then (src, st) :: rest else (k, v) :: setSource rest src st

/-- The inner loop of `ingest` over one line's tokens
(`for i, tk in enumerate(tokens): if tk not in map: map[tk] = start + i`):
each token not yet in the index is inserted at its stream position. -/
def addTokens : List (Tok × Nat) → Nat → List Tok → List (Tok × Nat)
  | idx, _, [] => idx
  | idx, pos, t :: ts =>
    addTokens (if (idx.lookup t).isSome then idx else idx ++ [(t, pos)])
      (pos + 1) ts

/-- One iteration of `ingest`'s line loop: append the line's tokens to the
stream, record first occurrences starting at the old stream length, and
append the (copied) token list as a cluster when non-empty. -/
def ingestLine (st : SourceState) (tokens : List Tok) : SourceState :=
  { tokens := st.tokens ++ tokens
    index := addTokens st.index st.tokens.length tokens
    missCount := st.missCount
    clusters := if tokens.isEmpty then st.clusters else st.clusters ++ [tokens] }

/-- Python `FullScanEngine.ingest(source, raw)`, parameterized by the tokenizer
(`tokenize_syllabic` of either variant): create the source if unseen, then
strip the raw text, split it on newlines and run the line loop. -/
def ingest (tok : List Char → List Tok) (e : Engine) (src : String)
    (raw : String) : Engine :=
  let st0 := (e.lookup src).getD SourceState.init
  setSource e src
    ((splitNl (pyStrip raw.data)).foldl (fun st l => ingestLine st (tok l)) st0)

/-- A whole sequence of `ingest` calls, applied in order. -/
def ingests (tok : List Char → List Tok) (calls : List (String × String))
    (e : Engine) : Engine :=
  calls.foldl (fun e c => ingest tok e c.1 c.2) e

/-- Python `sum(1 for tok in full_text if tok not in context_map)`. -/
def computeMissing (st : SourceState) : Nat :=
  (st.tokens.filter (fun t => (st.index.lookup t).isNone)).length

/-- Python `FullScanEngine.scan_complete(source)` together with its state effect:
returns `false` untouched if the source is unknown or empty; otherwise
recomputes and stores the miss count and checks miss count zero, first
token at position 0 and last token at position `len - 1`. -/
def scan_complete_run (e : Engine) (src : String) : Bool × Engine :=
  match e.lookup src with
  | none => (false, e)
  | some st =>
    if st.tokens.isEmpty then (false, e)
    else
      let missing := computeMissing st
      ((missing == 0)
          && (st.index.lookup (st.tokens.headD []) == some 0)
          && (st.index.lookup (st.tokens.getLastD [])
                == some (st.tokens.length - 1)),
        setSource e src { st with missCount := missing })

/-- The boolean result of `scan_complete`. -/
def scan_complete (e : Engine) (src : String) : Bool :=
  (scan_complete_run e src).1

/-- Python `FullScanEngine.dump(source)`: first, middle and last token joined by
single spaces; empty for an unknown or empty source. -/
def dump (e : Engine) (src : String) : List Char :=
  match e.lookup src with
  | none => []
  | some st =>
    if st.tokens.isEmpty then []
    else
      st.tokens.headD [] ++ ' ' :: (st.tokens.getD (st.tokens.length / 2) []
        ++ ' ' :: st.tokens.getLastD [])

/-- Python `FullScanEngine.token_count(source)`: stream length, 0 if unknown. -/
def token_count (e : Engine) (src : String) : Nat :=
  ((e.lookup src).getD SourceState.init).tokens.length

/-- Python `FullScanEngine.avg_syllable_length(source)`: average token length as
an exact rational (`0` for an unknown or empty source; the Python float
division is modelled by exact division). -/
def avg_syllable_length (e : Engine) (src : String) : ℚ :=
  let tokens := ((e.lookup src).getD SourceState.init).tokens
  if tokens.isEmpty then 0
  else ((tokens.map List.length).sum : ℚ) / (tokens.length : ℚ)

/-- Position of the first occurrence of `t` in a list (length of the list
if absent). -/
def firstIdx (t : Tok) : List Tok → Nat
  | [] => 0
  | u :: us => if u = t then 0 else firstIdx t us + 1

/-! ## Syllabifier lemmas -/

/-- Concatenating the syllables produced by the accumulate-on-vowel loop
restores the buffer followed by the remaining input. -/
theorem syllabifyAux_flatten (w : List Char) : ∀ syl : List Char,
    (syllabifyAux syl w).flatten = syl ++ w := by
  induction w with
  | nil =>
    intro syl
    by_cases h : syl.isEmpty
    · simp [syllabifyAux, h, List.isEmpty_iff.mp h]
    · simp [syllabifyAux, h]
  | cons c cs ih =>
    intro syl
    simp only [syllabifyAux]
    split
    · simp [ih]
    · rw [ih]
      simp

/-- Round trip for the accumulate-on-vowel syllabifier. -/
theorem syllabify_flatten (w : Tok) : (syllabify w).flatten = w := by
  simpa using syllabifyAux_flatten w []

/-- On vowel-free input the loop never closes the buffer. -/
theorem syllabifyAux_no_vowel (w : List Char)
    (h : ∀ c ∈ w, vowelsY.contains c = false) : ∀ syl : List Char,
    syllabifyAux syl w = if (syl ++ w).isEmpty then [] else [syl ++ w] := by
  induction w with
  | nil => intro syl; simp [syllabifyAux]
  | cons c cs ih =>
    intro syl
    have hc : vowelsY.contains c = false := h c (List.mem_cons_self _ _)
    have hcs : ∀ x ∈ cs, vowelsY.contains x = false :=
      fun x hx => h x (List.mem_cons_of_mem _ hx)
    simp only [syllabifyAux, hc, Bool.false_and, if_neg Bool.false_ne_true,
      ih hcs]
    simp

/-! ## First-occurrence positions -/

theorem firstIdx_cons_self (t : Tok) (ts : List Tok) :
    firstIdx t (t :: ts) = 0 := by
  simp [firstIdx]

theorem firstIdx_append_left {t : Tok} {l : List Tok} (h : t ∈ l)
    (l2 : List Tok) : firstIdx t (l ++ l2) = firstIdx t l := by
  induction l with
  | nil => cases h
  | cons u us ih =>
    by_cases hu : u = t
    · simp [firstIdx, hu]
    · rcases List.mem_cons.mp h with h1 | h1
      · exact absurd h1.symm hu
      · simp [firstIdx, hu, ih h1]

theorem firstIdx_append_right {t : Tok} {l : List Tok} (h : t ∉ l)
    (l2 : List Tok) : firstIdx t (l ++ l2) = l.length + firstIdx t l2 := by
  induction l with
  | nil => simp
  | cons u us ih =>
    have hu : u ≠ t := fun he => h (he ▸ List.mem_cons_self _ _)
    have hus : t ∉ us := fun hm => h (List.mem_cons_of_mem _ hm)
    simp [firstIdx, hu, ih hus]
    omega

theorem firstIdx_getElem {t : Tok} {l : List Tok} (h : t ∈ l) :
    l[firstIdx t l]? = some t := by
  induction l with
  | nil => cases h
  | cons u us ih =>
    by_cases hu : u = t
    · simp [firstIdx, hu]
    · rcases List.mem_cons.mp h with h1 | h1
      · exact absurd h1.symm hu
      · simp [firstIdx, hu, ih h1]

theorem firstIdx_min {t : Tok} {l : List Tok} :
    ∀ j < firstIdx t l, l[j]? ≠ some t := by
  induction l with
  | nil => intro j hj; simp [firstIdx] at hj
  | cons u us ih =>
    intro j hj
    by_cases hu : u = t
    · simp [firstIdx, hu] at hj
    · simp only [firstIdx, if_neg hu] at hj
      cases j with
      | zero => simpa using fun he => hu he
      | succ k =>
        simpa using ih k (by omega)

/-! ## Association-list lemmas -/

theorem lookup_append_some {α β : Type} [BEq α] {l1 : List (α × β)} {a : α}
    {b : β} (h : l1.lookup a = some b) (l2 : List (α × β)) :
    (l1 ++ l2).lookup a = some b := by
  induction l1 with
  | nil => simp at h
  | cons kv rest ih =>
    obtain ⟨k, v⟩ := kv
    rw [List.cons_append, List.lookup_cons]
    rw [List.lookup_cons] at h
    cases hk : a == k with
    | true =>
      rw [hk] at h
      exact h
    | false =>
      rw [hk] at h
      exact ih h

theorem lookup_append_none {α β : Type} [BEq α] {l1 : List (α × β)} {a : α}
    (h : l1.lookup a = none) (l2 : List (α × β)) :
    (l1 ++ l2).lookup a = l2.lookup a := by
  induction l1 with
  | nil => simp
  | cons kv rest ih =>
    obtain ⟨k, v⟩ := kv
    rw [List.cons_append, List.lookup_cons]
    rw [List.lookup_cons] at h
    cases hk : a == k with
    | true =>
      rw [hk] at h
      exact absurd h (by simp)
    | false =>
      rw [hk] at h
      exact ih h

/-! ## Index-building lemmas -/

/-- An index is correct for a token stream when it holds exactly the
tokens of the stream, each mapped to its first-occurrence position. -/
def IndexCorrect (idx : List (Tok × Nat)) (tokens : List Tok) : Prop :=
  ∀ t : Tok, idx.lookup t = if t ∈ tokens then some (firstIdx t tokens) else none

theorem indexCorrect_nil : IndexCorrect [] [] := by
  intro t
  simp

/-- Entries already in the index survive `addTokens` unchanged. -/
theorem addTokens_lookup_some {idx : List (Tok × Nat)} {t : Tok} {q : Nat}
    (h : idx.lookup t = some q) :
    ∀ (ts : List Tok) (pos : Nat), (addTokens idx pos ts).lookup t = some q := by
  intro ts
  induction ts generalizing idx with
  | nil => intro pos; simpa [addTokens] using h
  | cons u us ih =>
    intro pos
    simp only [addTokens]
    by_cases hu : (idx.lookup u).isSome = true
    · rw [if_pos hu]
      exact ih h _
    · rw [if_neg hu]
      exact ih (lookup_append_some h _) _

/-- One insertion step of the ingest loop preserves index correctness. -/
theorem indexCorrect_step {idx : List (Tok × Nat)} {toks : List Tok}
    (h : IndexCorrect idx toks) (t : Tok) :
    IndexCorrect (if (idx.lookup t).isSome then idx else idx ++ [(t, toks.length)])
      (toks ++ [t]) := by
  intro u
  by_cases htm : t ∈ toks
  · have hts : idx.lookup t = some (firstIdx t toks) := by
      rw [h t, if_pos htm]
    rw [if_pos (by simp [hts])]
    by_cases hum : u ∈ toks
    · rw [h u, if_pos hum, if_pos (List.mem_append_left _ hum),
        firstIdx_append_left hum]
    · have hut : u ∉ toks ++ [t] := by
        intro hu
        rcases List.mem_append.mp hu with h1 | h1
        · exact hum h1
        · rw [List.mem_singleton.mp h1] at hum
          exact hum htm
      rw [h u, if_neg hum, if_neg hut]
  · have hnone : idx.lookup t = none := by
      rw [h t, if_neg htm]
    rw [if_neg (by simp [hnone])]
    by_cases hum : u ∈ toks
    · have hus : idx.lookup u = some (firstIdx u toks) := by
        rw [h u, if_pos hum]
      rw [lookup_append_some hus, if_pos (List.mem_append_left _ hum),
        firstIdx_append_left hum]
    · by_cases hut : u = t
      · subst hut
        rw [lookup_append_none hnone, if_pos (List.mem_append_right _ (List.mem_singleton_self _)),
          firstIdx_append_right htm]
        rw [List.lookup_cons_self]
        simp [firstIdx]
      · have hus : idx.lookup u = none := by
          rw [h u, if_neg hum]
        rw [lookup_append_none hus, if_neg (by
          intro hu
          rcases List.mem_append.mp hu with h1 | h1
          · exact hum h1
          · exact hut (List.mem_singleton.mp h1))]
        rw [List.lookup_cons]
        have : (u == t) = false := by
          simpa using hut
        rw [this]
        simp

/-- Lemma: `addTokens` keeps the index correct while the tokens are appended. -/
theorem indexCorrect_addTokens {idx : List (Tok × Nat)} {toks : List Tok}
    (h : IndexCorrect idx toks) (new : List Tok) :
    IndexCorrect (addTokens idx toks.length new) (toks ++ new) := by
  induction new generalizing idx toks with
  | nil =>
    rw [List.append_nil]
    exact h
  | cons t ts ih =>
    have step := indexCorrect_step h t
    have hrec := ih step
    rw [List.append_assoc, List.singleton_append] at hrec
    have hlen : (toks ++ [t]).length = toks.length + 1 := by simp
    rw [hlen] at hrec
    exact hrec

/-! ## Engine-map lemmas -/

theorem lookup_setSource_self (e : Engine) (src : String) (st : SourceState) :
    (setSource e src st).lookup src = some st := by
  induction e with
  | nil => simp [setSource]
  | cons kv rest ih =>
    obtain ⟨k, v⟩ := kv
    by_cases hk : k = src
    · subst hk
      simp [setSource]
    · simp only [setSource, beq_false_of_ne hk, Bool.false_eq_true, if_false]
      rw [List.lookup_cons, beq_false_of_ne (Ne.symm hk)]
      exact ih

theorem lookup_setSource_ne (e : Engine) {src src2 : String} (h : src2 ≠ src)
    (st : SourceState) : (setSource e src st).lookup src2 = e.lookup src2 := by
  induction e with
  | nil =>
    simp only [setSource, List.lookup_nil]
    rw [List.lookup_cons, beq_false_of_ne h]
    rfl
  | cons kv rest ih =>
    obtain ⟨k, v⟩ := kv
    by_cases hk : k = src
    · subst hk
      simp only [setSource, beq_self_eq_true, if_true]
      rw [List.lookup_cons, List.lookup_cons, beq_false_of_ne h]
    · simp only [setSource, beq_false_of_ne hk, Bool.false_eq_true, if_false]
      rw [List.lookup_cons, List.lookup_cons]
      cases hsk : src2 == k with
      | true => rfl
      | false => exact ih

/-! ## Ingest lemmas -/

theorem ingestLine_tokens (st : SourceState) (ts : List Tok) :
    (ingestLine st ts).tokens = st.tokens ++ ts := rfl

theorem ingestLine_missCount (st : SourceState) (ts : List Tok) :
    (ingestLine st ts).missCount = st.missCount := rfl

/-- The line loop only appends to the token stream. -/
theorem foldl_ingestLine_tokens (tok : List Char → List Tok)
    (lines : List (List Char)) (st : SourceState) :
    (lines.foldl (fun s l => ingestLine s (tok l)) st).tokens
      = st.tokens ++ (lines.map tok).flatten := by
  induction lines generalizing st with
  | nil => simp
  | cons l ls ih =>
    rw [List.foldl_cons, ih, ingestLine_tokens]
    simp

/-- The line loop never changes the stored miss count. -/
theorem foldl_ingestLine_missCount (tok : List Char → List Tok)
    (lines : List (List Char)) (st : SourceState) :
    (lines.foldl (fun s l => ingestLine s (tok l)) st).missCount
      = st.missCount := by
  induction lines generalizing st with
  | nil => rfl
  | cons l ls ih =>
    rw [List.foldl_cons, ih, ingestLine_missCount]

/-- The line loop keeps the index correct for the stream. -/
theorem foldl_ingestLine_indexCorrect (tok : List Char → List Tok)
    (lines : List (List Char)) (st : SourceState)
    (h : IndexCorrect st.index st.tokens) :
    IndexCorrect (lines.foldl (fun s l => ingestLine s (tok l)) st).index
      (lines.foldl (fun s l => ingestLine s (tok l)) st).tokens := by
  induction lines generalizing st with
  | nil => exact h
  | cons l ls ih =>
    rw [List.foldl_cons]
    exact ih _ (indexCorrect_addTokens h (tok l))

/-- The line loop preserves existing index entries. -/
theorem foldl_ingestLine_lookup_some (tok : List Char → List Tok)
    (lines : List (List Char)) (st : SourceState) {t : Tok} {q : Nat}
    (h : st.index.lookup t = some q) :
    ((lines.foldl (fun s l => ingestLine s (tok l)) st).index).lookup t
      = some q := by
  induction lines generalizing st with
  | nil => exact h
  | cons l ls ih =>
    rw [List.foldl_cons]
    exact ih _ (addTokens_lookup_some h (tok l) _)

/-- Every source state reachable in the engine has a correct index. -/
def EngineInv (e : Engine) : Prop :=
  ∀ (src : String) (st : SourceState),
    e.lookup src = some st → IndexCorrect st.index st.tokens

theorem engineInv_nil : EngineInv [] := by
  intro src st h
  simp at h

theorem engineInv_ingest {e : Engine} (h : EngineInv e)
    (tok : List Char → List Tok) (src : String) (raw : String) :
    EngineInv (ingest tok e src raw) := by
  intro s st hs
  by_cases hsrc : s = src
  · subst hsrc
    unfold ingest at hs
    rw [lookup_setSource_self] at hs
    cases hs
    apply foldl_ingestLine_indexCorrect
    cases he : e.lookup s with
    | none =>
      simp only [he, Option.getD_none]
      exact indexCorrect_nil
    | some st1 =>
      simp only [he, Option.getD_some]
      exact h s st1 he
  · unfold ingest at hs
    rw [lookup_setSource_ne _ hsrc] at hs
    exact h s st hs

theorem engineInv_ingests {e : Engine} (h : EngineInv e)
    (tok : List Char → List Tok) (calls : List (String × String)) :
    EngineInv (ingests tok calls e) := by
  induction calls generalizing e with
  | nil => exact h
  | cons c cs ih => exact ih (engineInv_ingest h tok c.1 c.2)

/-- Looking up the ingested source after `ingest` yields the state built
by the line loop from the previous (or fresh) state. -/
theorem ingest_lookup_self (tok : List Char → List Tok) (e : Engine)
    (src raw : String) :
    (ingest tok e src raw).lookup src
      = some ((splitNl (pyStrip raw.data)).foldl
          (fun st l => ingestLine st (tok l))
          ((e.lookup src).getD SourceState.init)) := by
  unfold ingest
  rw [lookup_setSource_self]

/-- Other sources are untouched by `ingest`. -/
theorem ingest_lookup_ne (tok : List Char → List Tok) (e : Engine)
    {src s : String} (h : s ≠ src) (raw : String) :
    (ingest tok e src raw).lookup s = e.lookup s := by
  unfold ingest
  rw [lookup_setSource_ne _ h]

/-- A single ingest call preserves any existing index entry of any
source (the entry is neither overwritten nor removed). -/
theorem ingest_preserves_entry {e : Engine} {s : String} {st : SourceState}
    {t : Tok} {q : Nat} (hs : e.lookup s = some st)
    (hq : st.index.lookup t = some q) (tok : List Char → List Tok)
    (src raw : String) :
    ∃ st2, (ingest tok e src raw).lookup s = some st2
      ∧ st2.index.lookup t = some q := by
  by_cases hsrc : s = src
  · subst hsrc
    refine ⟨_, ingest_lookup_self tok e s raw, ?_⟩
    apply foldl_ingestLine_lookup_some
    simpa [hs] using hq
  · refine ⟨st, ?_, hq⟩
    rw [ingest_lookup_ne tok e hsrc raw]
    exact hs

/-- A whole sequence of later ingest calls preserves any existing index
entry of any source. -/
theorem ingests_preserves_entry {e : Engine} {s : String} {st : SourceState}
    {t : Tok} {q : Nat} (hs : e.lookup s = some st)
    (hq : st.index.lookup t = some q) (tok : List Char → List Tok)
    (more : List (String × String)) :
    ∃ st2, (ingests tok more e).lookup s = some st2
      ∧ st2.index.lookup t = some q := by
  induction more generalizing e st with
  | nil => exact ⟨st, hs, hq⟩
  | cons c cs ih =>
    obtain ⟨st1, h1, h2⟩ := ingest_preserves_entry hs hq tok c.1 c.2
    exact ih h1 h2

/-! ## Scan-completion lemmas -/

theorem computeMissing_eq_zero {st : SourceState}
    (h : ∀ t ∈ st.tokens, (st.index.lookup t).isSome = true) :
    computeMissing st = 0 := by
  unfold computeMissing
  rw [List.length_eq_zero, List.filter_eq_nil_iff]
  intro a ha
  have hsome := h a ha
  cases hl : List.lookup a st.index with
  | none =>
    rw [hl] at hsome
    exact absurd hsome (by simp)
  | some v => simp

theorem getLastD_mem {l : List Tok} (h : l ≠ []) : l.getLastD [] ∈ l := by
  cases l with
  | nil => exact absurd rfl h
  | cons a as =>
    rw [List.getLastD_cons]
    exact List.getLastD_mem_cons as a

/-- Evaluation of `scan_complete_run` on a known, non-empty source. -/
theorem scan_complete_run_some {e : Engine} {src : String} {st : SourceState}
    (hs : e.lookup src = some st) (hne : st.tokens ≠ []) :
    scan_complete_run e src
      = ((computeMissing st == 0)
          && (st.index.lookup (st.tokens.headD []) == some 0)
          && (st.index.lookup (st.tokens.getLastD [])
                == some (st.tokens.length - 1)),
        setSource e src { st with missCount := computeMissing st }) := by
  unfold scan_complete_run
  rw [hs]
  simp only [List.isEmpty_iff, hne, if_neg]
  simp [hne]

/-! ## Claims -/

/-- C2: for every word `w` over the supported alphabet, concatenating the
sequence returned by `syllabify w` in order equals `w` exactly (this holds
for all character lists whatsoever). -/
theorem c2_syllabify_round_trip (w : Tok) : (syllabify w).flatten = w :=
  syllabify_flatten w

/-- C3: every non-empty word with no vowel character (vowel set
`aeiouyAEIOUY` of the accumulate-on-vowel syllabifier) is returned as a
single syllable equal to the whole word. -/
theorem c3_no_vowel_single_syllable (w : Tok) (hne : w ≠ [])
    (h : ∀ c ∈ w, vowelsY.contains c = false) : syllabify w = [w] := by
  unfold syllabify
  rw [syllabifyAux_no_vowel w h []]
  simp [hne]

/-- C3 witness: the word "str" is non-empty, contains no vowel
(note `y` counts as a vowel for this syllabifier, so "str" avoids it),
and is returned as the single syllable ["str"]. -/
theorem c3_witness :
    ((['s', 't', 'r'] : Tok) ≠ [] ∧ ∀ c ∈ (['s', 't', 'r'] : Tok), vowelsY.contains c = false)
    ∧ syllabify ['s', 't', 'r'] = [['s', 't', 'r']] :=
  ⟨⟨by decide, by decide⟩, c3_no_vowel_single_syllable ['s', 't', 'r'] (by decide) (by decide)⟩

/-- C10: the first variant's `tokenize_syllabic` (syllabify, then rejoin
with the punctuation) produces exactly the token sequence of the second
variant's word-mode tokenization, for every input line: the
syllabification step is observationally a no-op at token level. -/
theorem c10_tokenizers_agree (text : List Char) :
    tokenize_syllabic1 text = tokenize_syllabic2 false text := by
  unfold tokenize_syllabic1 tokenize_syllabic2
  rw [if_neg (by simp)]
  apply List.map_congr_left
  intro bp _
  rw [syllabify_flatten]

/-- C8: ingesting "hello world. bye!" into a fresh source of a word-mode
engine yields the token stream ["hello", "world.", "bye!"], after which
`scan_complete` is true and `dump` returns "hello world. bye!". -/
theorem c8_word_mode_scenario :
    (List.lookup "s" (ingest (tokenize_syllabic2 false) [] "s" "hello world. bye!")).map
        SourceState.tokens
      = some ["hello".data, "world.".data, "bye!".data]
    ∧ scan_complete (ingest (tokenize_syllabic2 false) [] "s" "hello world. bye!") "s" = true
    ∧ dump (ingest (tokenize_syllabic2 false) [] "s" "hello world. bye!") "s"
        = "hello world. bye!".data :=
  ⟨by decide, by decide, by decide⟩

/-- C9: ingesting "strength" into a fresh source of a syllable-mode engine
under the accumulate-on-vowel syllabification policy yields the syllable
tokens ["stre", "ngth"], and `token_count` is then 2. -/
theorem c9_syllable_mode_strength :
    (List.lookup "s" (ingest tokenize_syllable_accum [] "s" "strength")).map
        SourceState.tokens
      = some ["stre".data, "ngth".data]
    ∧ token_count (ingest tokenize_syllable_accum [] "s" "strength") "s" = 2 :=
  ⟨by decide, by decide⟩

theorem computeMissing_zero_iff (st : SourceState) :
    computeMissing st = 0
      ↔ ∀ t ∈ st.tokens, (st.index.lookup t).isSome = true := by
  constructor
  · intro h t ht
    unfold computeMissing at h
    rw [List.length_eq_zero, List.filter_eq_nil_iff] at h
    cases hl : List.lookup t st.index with
    | none =>
      exfalso
      exact h t ht (by rw [hl]; rfl)
    | some v => rfl
  · exact computeMissing_eq_zero

theorem head?_eq_some_headD {l : List Tok} (h : l ≠ []) :
    l.head? = some (l.headD []) := by
  cases l with
  | nil => exact absurd rfl h
  | cons a as => rfl

theorem getLast?_eq_some_getLastD {l : List Tok} (h : l ≠ []) :
    l.getLast? = some (l.getLastD []) := by
  rw [List.getLast?_eq_getLast l h, List.getLastD_eq_getLast?,
    List.getLast?_eq_getLast l h]
  rfl

/-- C4: `scan_complete` returns false for an unknown or empty source, and
otherwise returns true exactly when every stream token is present in the
index, the first token maps to 0 and the last token maps to
`len(tokens) - 1`. -/
theorem c4_scan_complete_characterization (e : Engine) (src : String) :
    (e.lookup src = none → scan_complete e src = false)
    ∧ (∀ st : SourceState, e.lookup src = some st → st.tokens = [] →
        scan_complete e src = false)
    ∧ (scan_complete e src = true ↔ ∃ st f l, e.lookup src = some st
        ∧ st.tokens.head? = some f ∧ st.tokens.getLast? = some l
        ∧ (∀ t ∈ st.tokens, (st.index.lookup t).isSome = true)
        ∧ st.index.lookup f = some 0
        ∧ st.index.lookup l = some (st.tokens.length - 1)) := by
  refine ⟨?_, ?_, ?_⟩
  · intro h
    unfold scan_complete scan_complete_run
    rw [h]
  · intro st hst htk
    unfold scan_complete scan_complete_run
    rw [hst]
    simp [htk]
  · cases he : e.lookup src with
    | none =>
      unfold scan_complete scan_complete_run
      rw [he]
      simp
    | some st =>
      by_cases hemp : st.tokens = []
      · unfold scan_complete scan_complete_run
        rw [he]
        simp [hemp]
      · unfold scan_complete
        rw [scan_complete_run_some he hemp]
        dsimp only
        constructor
        · intro hb
          simp only [Bool.and_eq_true, beq_iff_eq] at hb
          obtain ⟨⟨hm, hf⟩, hl⟩ := hb
          exact ⟨st, st.tokens.headD [], st.tokens.getLastD [], rfl,
            head?_eq_some_headD hemp, getLast?_eq_some_getLastD hemp,
            (computeMissing_zero_iff st).mp hm, hf, hl⟩
        · rintro ⟨st1, f, l, hst1, hf, hl, hall, hf0, hllen⟩
          injection hst1 with hst1
          subst hst1
          rw [head?_eq_some_headD hemp] at hf
          injection hf with hf
          subst hf
          rw [getLast?_eq_some_getLastD hemp] at hl
          injection hl with hl
          subst hl
          simp only [Bool.and_eq_true, beq_iff_eq]
          exact ⟨⟨(computeMissing_zero_iff st).mpr hall, hf0⟩, hllen⟩

/-- C6: token counts add up — ingesting A then B into the same source
gives the count of A alone plus the count B alone produces in a fresh
engine. -/
theorem c6_token_count_additive (tok : List Char → List Tok) (e : Engine)
    (src : String) (rawA rawB : String) :
    token_count (ingest tok (ingest tok e src rawA) src rawB) src
      = token_count (ingest tok e src rawA) src
        + token_count (ingest tok [] src rawB) src := by
  unfold token_count
  rw [ingest_lookup_self tok (ingest tok e src rawA) src rawB,
    ingest_lookup_self tok e src rawA,
    ingest_lookup_self tok [] src rawB]
  simp only [Option.getD_some, foldl_ingestLine_tokens, List.length_append]
  simp [SourceState.init]

/-- Sources never touched by any of the ingest calls stay absent. -/
theorem lookup_ingests_of_not_called (tok : List Char → List Tok)
    (calls : List (String × String)) {src : String}
    (h : ∀ c ∈ calls, c.1 ≠ src) (e : Engine) :
    (ingests tok calls e).lookup src = e.lookup src := by
  induction calls generalizing e with
  | nil => rfl
  | cons c cs ih =>
    have step : (ingest tok e c.1 c.2).lookup src = e.lookup src :=
      ingest_lookup_ne tok e (Ne.symm (h c (List.mem_cons_self _ _))) c.2
    calc (ingests tok (c :: cs) e).lookup src
        = (ingests tok cs (ingest tok e c.1 c.2)).lookup src := rfl
      _ = (ingest tok e c.1 c.2).lookup src :=
          ih (fun x hx => h x (List.mem_cons_of_mem _ hx)) _
      _ = e.lookup src := step

/-- C7: every query on a source key never passed to `ingest` returns its
neutral default — `scan_complete` false, `dump` empty, `token_count` 0 and
`avg_syllable_length` 0 — rather than signaling an error. -/
theorem c7_unknown_source_defaults (tok : List Char → List Tok)
    (calls : List (String × String)) (src : String)
    (h : ∀ c ∈ calls, c.1 ≠ src) :
    scan_complete (ingests tok calls []) src = false
    ∧ dump (ingests tok calls []) src = []
    ∧ token_count (ingests tok calls []) src = 0
    ∧ avg_syllable_length (ingests tok calls []) src = 0 := by
  have hl : (ingests tok calls []).lookup src = none := by
    rw [lookup_ingests_of_not_called tok calls h []]
    rfl
  refine ⟨?_, ?_, ?_, ?_⟩
  · unfold scan_complete scan_complete_run
    rw [hl]
  · unfold dump
    rw [hl]
  · unfold token_count
    rw [hl]
    rfl
  · unfold avg_syllable_length
    rw [hl]
    rfl

/-- C7 witness: after ingesting only into source "a", the queries on the
never-ingested source "b" all return their defaults. -/
theorem c7_witness :
    scan_complete (ingests tokenize_syllabic1 [("a", "x")] []) "b" = false
    ∧ dump (ingests tokenize_syllabic1 [("a", "x")] []) "b" = []
    ∧ token_count (ingests tokenize_syllabic1 [("a", "x")] []) "b" = 0
    ∧ avg_syllable_length (ingests tokenize_syllabic1 [("a", "x")] []) "b" = 0 :=
  c7_unknown_source_defaults tokenize_syllabic1 [("a", "x")] "b" (by decide)

/-- C1 counterexample: the raw text "a b a" is non-empty and is ingested
once into the fresh source "s", yet `scan_complete` returns false — the
last token "a" is indexed at its first occurrence 0, not at position 2. -/
theorem c1_counterexample :
    ("a b a" : String) ≠ ""
    ∧ scan_complete (ingest tokenize_syllabic1 [] "s" "a b a") "s" = false :=
  ⟨by decide, by decide⟩

/-- C1 (amended): for every raw text ingested once into a fresh source
whose resulting token stream is non-empty and whose last token does not
occur at any earlier stream position, `scan_complete` returns true and the
recomputed miss count stored for the source is 0. -/
theorem c1_completeness_after_full_ingest (tok : List Char → List Tok)
    (src raw : String) (st : SourceState)
    (h : (ingest tok [] src raw).lookup src = some st)
    (hne : st.tokens ≠ [])
    (hlast : firstIdx (st.tokens.getLastD []) st.tokens
      = st.tokens.length - 1) :
    scan_complete (ingest tok [] src raw) src = true
    ∧ ∃ st2,
        ((scan_complete_run (ingest tok [] src raw) src).2).lookup src
          = some st2
        ∧ st2.missCount = 0 := by
  have hinv : IndexCorrect st.index st.tokens :=
    engineInv_ingest engineInv_nil tok src raw src st h
  have hall : ∀ t ∈ st.tokens, (st.index.lookup t).isSome = true := by
    intro t ht
    rw [hinv t, if_pos ht]
    rfl
  have hmiss : computeMissing st = 0 := computeMissing_eq_zero hall
  have hhead : st.index.lookup (st.tokens.headD []) = some 0 := by
    cases htok : st.tokens with
    | nil => exact absurd htok hne
    | cons a as =>
      rw [htok] at hinv
      rw [List.headD_cons, hinv a, if_pos (List.mem_cons_self a as),
        firstIdx_cons_self]
  have hlastl : st.index.lookup (st.tokens.getLastD [])
      = some (st.tokens.length - 1) := by
    rw [hinv _, if_pos (getLastD_mem hne), hlast]
  have hrun := scan_complete_run_some h hne
  constructor
  · unfold scan_complete
    rw [hrun]
    dsimp only
    rw [hmiss, hhead, hlastl]
    simp
  · refine ⟨{ st with missCount := computeMissing st }, ?_, ?_⟩
    · rw [hrun]
      exact lookup_setSource_self _ _ _
    · exact hmiss

/-- C1 witness for the amended statement: ingesting "hi there" into the
fresh source "s" yields two distinct tokens, and `scan_complete` is
true. -/
theorem c1_witness :
    scan_complete (ingest tokenize_syllabic1 [] "s" "hi there") "s" = true :=
  (c1_completeness_after_full_ingest tokenize_syllabic1 "s" "hi there"
    ((List.lookup "s" (ingest tokenize_syllabic1 [] "s" "hi there")).getD
      SourceState.init)
    (by decide) (by decide) (by decide)).1

/-- C5: after any sequence of ingest calls starting from the empty engine,
every token value in a source's stream is indexed at the position of its
first occurrence (the position holds the token and no earlier position
does), and the entry survives any sequence of later ingest calls
unchanged. -/
theorem c5_index_first_occurrence (tok : List Char → List Tok)
    (calls : List (String × String)) (src : String) (st : SourceState)
    (t : Tok) (h : (ingests tok calls []).lookup src = some st)
    (ht : t ∈ st.tokens) :
    st.index.lookup t = some (firstIdx t st.tokens)
    ∧ st.tokens[firstIdx t st.tokens]? = some t
    ∧ (∀ j < firstIdx t st.tokens, st.tokens[j]? ≠ some t)
    ∧ ∀ more : List (String × String), ∃ st2,
        (ingests tok more (ingests tok calls [])).lookup src = some st2
        ∧ st2.index.lookup t = some (firstIdx t st.tokens) := by
  have hinv : IndexCorrect st.index st.tokens :=
    engineInv_ingests engineInv_nil tok calls src st h
  have hidx : st.index.lookup t = some (firstIdx t st.tokens) := by
    rw [hinv t, if_pos ht]
  refine ⟨hidx, firstIdx_getElem ht, firstIdx_min, ?_⟩
  intro more
  exact ingests_preserves_entry h hidx tok more

/-- C5 witness: in the stream ["b", "a", "b"] of source "s", the repeated
token "b" is indexed at its first occurrence, position 0. -/
theorem c5_witness :
    (((List.lookup "s" (ingests tokenize_syllabic1 [("s", "b a b")] [])).getD
        SourceState.init).index).lookup "b".data
      = some (firstIdx "b".data
          ((List.lookup "s" (ingests tokenize_syllabic1 [("s", "b a b")] [])).getD
            SourceState.init).tokens)
    ∧ (((List.lookup "s" (ingests tokenize_syllabic1 [("s", "b a b")] [])).getD
        SourceState.init).tokens)[firstIdx "b".data
          ((List.lookup "s" (ingests tokenize_syllabic1 [("s", "b a b")] [])).getD
            SourceState.init).tokens]? = some "b".data :=
  ⟨(c5_index_first_occurrence tokenize_syllabic1 [("s", "b a b")] "s"
      ((List.lookup "s" (ingests tokenize_syllabic1 [("s", "b a b")] [])).getD
        SourceState.init) "b".data (by decide) (by decide)).1,
    (c5_index_first_occurrence tokenize_syllabic1 [("s", "b a b")] "s"
      ((List.lookup "s" (ingests tokenize_syllabic1 [("s", "b a b")] [])).getD
        SourceState.init) "b".data (by decide) (by decide)).2.1⟩
